import Mathlib

/-!
Verification of the notion-flexible-blocks planning and execution engine.

The definitions below are a shallow embedding of the TypeScript sources:
`block.ts` (Block, maximumDepthToExist), `inline.ts` (Inline, text),
`flexible-block.ts` (FlexibleBlock, toBlocks, toInlines, mapCaption),
`plan.ts` (Planner: plan/run/visit/visitEach, testBlockTypes),
`execute.ts` (Executor: execute/blockId) and `util.ts` (defaultRetryable).
Kind-specific payloads that the engine never inspects (rich text details,
urls, table widths, ...) are abstracted into an opaque `payload : Nat`;
the fields the engine does inspect (the kind tag, rich text for paragraph
synthesis, media captions, the children list) are modelled explicitly.
-/

set_option maxRecDepth 1000000

/-- The 29 block kinds enumerated by the `switch` in `Planner.visit`. -/
inductive BlockType where
  | embed
  | bookmark
  | image
  | video
  | pdf
  | file
  | audio
  | code
  | equation
  | divider
  | breadcrumb
  | table_of_contents
  | link_to_page
  | heading_1
  | heading_2
  | heading_3
  | paragraph
  | table_row
  | synced_block
  | table
  | column_list
  | column
  | quote
  | bulleted_list_item
  | numbered_list_item
  | to_do
  | toggle
  | template
  | callout
deriving DecidableEq, Repr

/-- Style payload of a rich text run; only the `code` flag is ever inspected
(by the anchor synthesis in `toInlines`). -/
structure Annots where
  code : Bool
deriving DecidableEq, Repr

/-- Type `InlineData`: a Notion rich text item (text run or mention). -/
inductive InlineData where
  | text (content : String) (annots : Option Annots)
  | mention (pageId : String) (annots : Option Annots)
deriving DecidableEq, Repr

/-- Type `Inline` wraps `InlineData`, mirroring `inline.ts`. -/
structure Inline where
  data : InlineData
deriving DecidableEq, Repr

/-- The `inline` constructor from `inline.ts` (`inline` itself is taken by
the Lean core library). -/
def inlineOf (d : InlineData) : Inline := ⟨d⟩

/-- Kind-specific data of a block: the kind tag, an opaque payload for
everything the engine never reads, the rich text (filled by the `paragraph`
constructor), and the media caption (rewritten by `mapCaption`). -/
structure BlockData where
  type : BlockType
  payload : Nat
  richText : List InlineData
  caption : Option (List InlineData)
deriving DecidableEq, Repr

/-- Type `Block` from `block.ts`: a kind-tagged node with an optional ordered
children list (`children?: Block[]`). -/
inductive Block where
  | mk (data : BlockData) (children : Option (List Block))

def Block.data : Block → BlockData
  | .mk d _ => d

def Block.children : Block → Option (List Block)
  | .mk _ c => c

/-- Types `NBlock0/1/2`: a ready-to-send node payload as assembled by
`Planner.visit` — the block data plus the embedded children produced by
`visitEach` (`none` models an absent/undefined children field). -/
inductive NBlock where
  | mk (data : BlockData) (children : Option (List NBlock))

def NBlock.data : NBlock → BlockData
  | .mk d _ => d

def NBlock.children : NBlock → Option (List NBlock)
  | .mk _ c => c

/-- Union `FlexibleBlock = Block | Inline` from `flexible-block.ts`. -/
inductive FlexibleBlock where
  | block (b : Block)
  | inline (i : Inline)

/-- One plan entry `{ path, bors }` from `plan.ts`. -/
structure PlanEntry where
  path : List Nat
  bors : List NBlock

/-- Type `Plan` from `plan.ts`. -/
abbrev Plan := List PlanEntry

/-- How planning fails: `policy msg` models the `ErrorHandler` being invoked
(the default handler throws `Error(msg)`); `typeError` models the JavaScript
`TypeError` raised by `testBlockTypes` calling `.every` on `undefined`. -/
inductive PlanError where
  | policy (msg : String)
  | typeError
deriving DecidableEq, Repr

/-- Function `maximumDepthToExist` from `block.ts`: the depth at which this Block is
allowed to exist within one API call. -/
def maximumDepthToExist (b : Block) : Nat :=
  match b.data.type with
  | .column_list => 0
  | .table => 1
  | .column => 1
  | _ => 2

/-- The `reduce`-computed minimum in `Planner.visitEach`:
`blocks.reduce((a, b) => Math.min(a, maximumDepthToExist(b)), 99)`. -/
def allowedDepthOf (blocks : List Block) : Nat :=
  blocks.foldl (fun a b => min a (maximumDepthToExist b)) 99

/-- String form of a kind tag, as interpolated into error messages. -/
def typeName : BlockType → String
  | .embed => "embed"
  | .bookmark => "bookmark"
  | .image => "image"
  | .video => "video"
  | .pdf => "pdf"
  | .file => "file"
  | .audio => "audio"
  | .code => "code"
  | .equation => "equation"
  | .divider => "divider"
  | .breadcrumb => "breadcrumb"
  | .table_of_contents => "table_of_contents"
  | .link_to_page => "link_to_page"
  | .heading_1 => "heading_1"
  | .heading_2 => "heading_2"
  | .heading_3 => "heading_3"
  | .paragraph => "paragraph"
  | .table_row => "table_row"
  | .synced_block => "synced_block"
  | .table => "table"
  | .column_list => "column_list"
  | .column => "column"
  | .quote => "quote"
  | .bulleted_list_item => "bulleted_list_item"
  | .numbered_list_item => "numbered_list_item"
  | .to_do => "to_do"
  | .toggle => "toggle"
  | .template => "template"
  | .callout => "callout"

/-- The four groups of `case` labels in the `switch` of `Planner.visit`:
the 19 kinds that must not have children, `table`, `column_list`, and the
8 container kinds that embed their children generically. -/
inductive KindClass where
  | leafKind
  | tableKind
  | columnListKind
  | containerKind
deriving DecidableEq, Repr

def classify : BlockType → KindClass
  | .embed => .leafKind
  | .bookmark => .leafKind
  | .image => .leafKind
  | .video => .leafKind
  | .pdf => .leafKind
  | .file => .leafKind
  | .audio => .leafKind
  | .code => .leafKind
  | .equation => .leafKind
  | .divider => .leafKind
  | .breadcrumb => .leafKind
  | .table_of_contents => .leafKind
  | .link_to_page => .leafKind
  | .heading_1 => .leafKind
  | .heading_2 => .leafKind
  | .heading_3 => .leafKind
  | .paragraph => .leafKind
  | .table_row => .leafKind
  | .synced_block => .leafKind
  | .table => .tableKind
  | .column_list => .columnListKind
  | .column => .containerKind
  | .quote => .containerKind
  | .bulleted_list_item => .containerKind
  | .numbered_list_item => .containerKind
  | .to_do => .containerKind
  | .toggle => .containerKind
  | .template => .containerKind
  | .callout => .containerKind

/-- Fixed-size chunking, structurally recursive (accumulator-based) so that
it evaluates by kernel reduction. `chunksOf n l` splits `l` into consecutive
pieces of size `n` (the last may be shorter), like the
`for (i = 0; i < xs.length; i += n) xs.slice(i, i + n)` loops in the source. -/
def chunksAux (n : Nat) : List α → List α → Nat → List (List α)
  | [], acc, _ => [acc.reverse]
  | x :: xs, acc, 0 => acc.reverse :: chunksAux n xs [x] (n - 1)
  | x :: xs, acc, k + 1 => chunksAux n xs (x :: acc) k

def chunksOf (n : Nat) (l : List α) : List (List α) :=
  match l with
  | [] => []
  | x :: xs => chunksAux n xs [x] (n - 1)

/-- Take/drop formulation of `chunksOf`, used for reasoning. -/
def chunksW (n : Nat) (l : List α) : List (List α) :=
  match l with
  | [] => []
  | x :: xs => (x :: xs.take (n - 1)) :: chunksW n (xs.drop (n - 1))
termination_by l.length
decreasing_by simp; omega

/-- Function `text` from `inline.ts`: splits the content into runs of at most 1000
characters (MAX_CONTENT_LENGTH), each carrying the given style payload. -/
def text (content : String) (annots : Option Annots) : List Inline :=
  (chunksOf 1000 content.data).map (fun cs => ⟨.text (String.mk cs) annots⟩)

/-- Constructor `paragraph` from `block.ts` (children are optional). -/
def paragraph (contents : List Inline) (children : Option (List Block)) : Block :=
  .mk ⟨.paragraph, 0, contents.map Inline.data, none⟩ children

/-- Loop body of `toBlocks` from `flexible-block.ts`: the first argument is
the remaining input, the second the pending `inlineBuf`. `chunk()` flushes
the buffer as paragraphs of at most 100 inlines (MAX_BLOCKS_LENGTH). -/
def toBlocksGo : List FlexibleBlock → List Inline → List Block
  | [], buf => (chunksOf 100 buf).map (fun c => paragraph c none)
  | .block b :: rest, buf =>
      (chunksOf 100 buf).map (fun c => paragraph c none) ++ b :: toBlocksGo rest []
  | .inline i :: rest, buf => toBlocksGo rest (buf ++ [i])

/-- Function `toBlocks` from `flexible-block.ts`. -/
def toBlocks (fbs : List FlexibleBlock) : List Block :=
  toBlocksGo fbs []

mutual

/-- Method `Planner.visit` from `plan.ts`. Besides the assembled payload it returns
the plan entries pushed (in push order) during this visit. -/
def visit : Block → Nat → List Nat → Except PlanError (NBlock × List PlanEntry)
  | .mk data children, depth, path =>
    match classify data.type with
    | .leafKind =>
      match children with
      | some (_ :: _) => .error (.policy (typeName data.type ++ " cannot have children"))
      | _ => .ok (.mk data none, [])
    | .tableKind =>
      match visitEach children (depth + 1) path with
      | .error e => .error e
      | .ok (none, _) => .error .typeError
      | .ok (some rows, es) =>
        if rows.all (fun r => r.data.type == BlockType.table_row) then
          .ok (.mk data (some rows), es)
        else
          .error (.policy "Only table_row must appear under table")
    | .columnListKind =>
      match visitEach children (depth + 1) path with
      | .error e => .error e
      | .ok (none, _) => .error .typeError
      | .ok (some columns, es) =>
        if columns.all (fun r => r.data.type == BlockType.column) then
          .ok (.mk data (some columns), es)
        else
          .error (.policy "Only column must appear under column_list")
    | .containerKind =>
      match visitEach children (depth + 1) path with
      | .error e => .error e
      | .ok (ocs, es) => .ok (.mk data ocs, es)

/-- Method `Planner.visitEach` from `plan.ts`. Returns the bundled payloads
(`undefined` if none) and the plan entries pushed during the walk: first
those pushed by the recursive visits, then the overflow chunks at `path`. -/
def visitEach : Option (List Block) → Nat → List Nat →
    Except PlanError (Option (List NBlock) × List PlanEntry)
  | none, _, _ => .ok (none, [])
  | some [], _, _ => .ok (none, [])
  | some (b :: bs), depth, path =>
    match visitFold (b :: bs) depth path
        (if allowedDepthOf (b :: bs) < depth then 0 else 100) 0 0 with
    | .error e => .error e
    | .ok ((bundled, splitted), es) =>
      .ok ((if bundled.isEmpty then none else some bundled),
        es ++ (chunksOf 100 splitted).map (fun c => ⟨path, c⟩))

/-- The sibling loop of `Planner.visitEach`: `q` is `bundlableSize`, `nb` and
`ns` the counts of already bundled/splitted siblings. Returns the bundled
and splitted payloads contributed by the remaining siblings, and the plan
entries pushed by their recursive visits. -/
def visitFold : List Block → Nat → List Nat → Nat → Nat → Nat →
    Except PlanError ((List NBlock × List NBlock) × List PlanEntry)
  | [], _, _, _, _, _ => .ok (([], []), [])
  | b :: rest, depth, path, q, nb, ns =>
    if nb < q then
      match visit b depth (path ++ [nb + ns]) with
      | .error e => .error e
      | .ok (n, es) =>
        match visitFold rest depth path q (nb + 1) ns with
        | .error e => .error e
        | .ok ((bu, sp), es') => .ok ((n :: bu, sp), es ++ es')
    else
      match visit b 0 (path ++ [nb + ns]) with
      | .error e => .error e
      | .ok (n, es) =>
        match visitFold rest depth path q nb (ns + 1) with
        | .error e => .error e
        | .ok ((bu, sp), es') => .ok ((bu, n :: sp), es ++ es')

end

/-- Stable insertion into a list sorted by ascending path length; `foldr`
over it realises the stable `sort((a, b) => a.path.length - b.path.length)`
of `Planner.run`. -/
def insertByLen (e : PlanEntry) : List PlanEntry → List PlanEntry
  | [] => [e]
  | x :: xs => if x.path.length < e.path.length then x :: insertByLen e xs else e :: x :: xs

def sortPlan (es : List PlanEntry) : List PlanEntry :=
  es.foldr insertByLen []

/-- Method `Planner.run` from `plan.ts`: visit the flattened forest at depth 0 and
path `[]`, unshift the bundled root entry if any, and stably sort by
ascending path length. -/
def run (fbs : List FlexibleBlock) : Except PlanError Plan :=
  match visitEach (some (toBlocks fbs)) 0 [] with
  | .error e => .error e
  | .ok (none, es) => .ok (sortPlan es)
  | .ok (some bors, es) => .ok (sortPlan (⟨[], bors⟩ :: es))

/-- Function `plan` from `plan.ts` (with the default error handler, which throws). -/
def plan (fbs : List FlexibleBlock) : Except PlanError Plan :=
  run fbs

/-- The media kinds whose payload carries a caption (`mapCaption` rewrites
exactly these; every other kind is returned unchanged). -/
def isMediaType : BlockType → Bool
  | .image => true
  | .embed => true
  | .video => true
  | .pdf => true
  | .audio => true
  | .file => true
  | _ => false

/-- Caption rewriting on the kind-specific data, mirroring the `h` wrapper
in `mapCaption`: the handler sees `Inline` values and its result is stored
back as raw `InlineData`. -/
def mapCaptionData (d : BlockData) (handler : Option (List Inline) → Option (List Inline)) :
    BlockData :=
  if isMediaType d.type then
    ⟨d.type, d.payload, d.richText,
      (handler (d.caption.map (fun l => l.map inlineOf))).map (fun l => l.map Inline.data)⟩
  else d

/-- Function `mapCaption` from `flexible-block.ts`, at the `Block` instance used by
`toInlines` (on an `Inline` the source function is the identity, since
`text`/`mention` are not media kinds). -/
def mapCaption (b : Block) (handler : Option (List Inline) → Option (List Inline)) : Block :=
  match b with
  | .mk d c => .mk (mapCaptionData d handler) c

/-- Function `toInlines` from `flexible-block.ts`: inlines pass through; each block is
replaced by the inline-code anchor `*n` (`n = referencedBlocks.length + 1`)
and appended to `referencedBlocks` with the anchor prepended to its caption. -/
def toInlines : List FlexibleBlock → List Block → List Inline × List Block
  | [], refs => ([], refs)
  | .inline i :: rest, refs =>
    match toInlines rest refs with
    | (is, bs) => (i :: is, bs)
  | .block b :: rest, refs =>
    match toInlines rest (refs ++ [mapCaption b (fun cap =>
        match cap with
        | some (c :: cs) =>
          some (text ("*" ++ toString (refs.length + 1)) (some ⟨true⟩) ++
            text " " none ++ c :: cs)
        | _ => some (text ("*" ++ toString (refs.length + 1)) (some ⟨true⟩)))]) with
    | (is, bs) => (text ("*" ++ toString (refs.length + 1)) (some ⟨true⟩) ++ is, bs)

/-- The thin transport client: the two remote operations the executor
performs. `append` returns the created identifiers in order; `listChildren`
returns the existing child identifiers in creation order (the paginated
cursor loop of `Executor.blockId` collects exactly this list). -/
structure Client where
  append : String → List NBlock → List String
  listChildren : String → List String

/-- Executor cache node `{ blockId, children? }` from `execute.ts`. -/
inductive BlockNode where
  | mk (blockId : String) (children : Option (List BlockNode))

def BlockNode.blockId : BlockNode → String
  | .mk i _ => i

def BlockNode.children : BlockNode → Option (List BlockNode)
  | .mk _ c => c

/-- Indexing past the cached children (`current.children[index]` being
`undefined` in the source, a TypeError one step later). -/
inductive ExecError where
  | indexOutOfRange
deriving DecidableEq, Repr

/-- Method `Executor.blockId` from `execute.ts`. Walks the cache along `path`,
fetching children by listing whenever unknown. Ghost outputs for the
claims: the list of identifiers that were listed, and whether a listing
call happened at the root node itself (`atRoot` marks the initial node). -/
def blockIdGo (client : Client) (atRoot : Bool) :
    BlockNode → List Nat → Except ExecError (String × BlockNode) × List String × Bool
  | .mk bid och, [] => (.ok (bid, .mk bid och), [], false)
  | .mk bid och, i :: rest =>
    match (match och with
      | some cs => (cs, ([] : List String), false)
      | none => ((client.listChildren bid).map (fun cid => BlockNode.mk cid none),
          [bid], atRoot)) with
    | (cs, log1, rl1) =>
      match cs[i]? with
      | none => (.error .indexOutOfRange, log1, rl1)
      | some child =>
        match blockIdGo client false child rest with
        | (.ok (rid, child'), log2, rl2) =>
          (.ok (rid, .mk bid (some (cs.set i child'))), log1 ++ log2, rl1 || rl2)
        | (.error e, log2, rl2) => (.error e, log1 ++ log2, rl1 || rl2)

/-- Result of running a plan: the final cache, the append calls made (target
identifier and payload, in call order), the listing calls made, whether the
root was ever listed, and the error that aborted execution, if any. -/
structure ExecOut where
  root : BlockNode
  appends : List (String × List NBlock)
  listed : List String
  rootListed : Bool
  err : Option ExecError

/-- The entry loop of `Executor.execute`: resolve each entry's path, append
its payload, and for a root-level entry push the created identifiers onto
the root's cached children. -/
def executeGo (client : Client) : BlockNode → List PlanEntry → ExecOut
  | root, [] => ⟨root, [], [], false, none⟩
  | root, e :: rest =>
    match blockIdGo client true root e.path with
    | (.error er, log1, rl1) => ⟨root, [], log1, rl1, some er⟩
    | (.ok (bid, root'), log1, rl1) =>
      match (if e.path.isEmpty then
          match root' with
          | .mk rbid och =>
            BlockNode.mk rbid (some (och.getD [] ++
              (client.append bid e.bors).map (fun cid => BlockNode.mk cid none)))
        else root') with
      | root2 =>
        match executeGo client root2 rest with
        | out => ⟨out.root, (bid, e.bors) :: out.appends, log1 ++ out.listed,
            rl1 || out.rootListed, out.err⟩

/-- Function `execute` from `execute.ts`: the root starts with a known identifier and
an empty (but present) cached children list. -/
def execute (client : Client) (rootBlockId : String) (p : Plan) : ExecOut :=
  executeGo client (.mk rootBlockId (some [])) p

/-- Ids of the root's cached children after execution. -/
def rootChildIds (o : ExecOut) : List String :=
  (o.root.children.getD []).map BlockNode.blockId

/-- Notion API error codes distinguished by the retry policy in `util.ts`. -/
inductive APIErrorCode where
  | conflictError
  | rateLimited
  | internalServerError
  | serviceUnavailable
  | validationError
  | objectNotFound
  | unauthorized
deriving DecidableEq, Repr

/-- A failure of a remote operation: a request timeout, an API response
error with a code, or any other thrown value. -/
inductive NotionError where
  | requestTimeout
  | apiError (code : APIErrorCode)
  | otherError (tag : Nat)
deriving DecidableEq, Repr

def DEFAULT_RETRYABLE_ERROR_CODES : List APIErrorCode :=
  [.conflictError, .rateLimited, .internalServerError, .serviceUnavailable]

/-- The `isRetryableError` classification inside `defaultRetryable`. -/
def isRetryableError : NotionError → Bool
  | .requestTimeout => true
  | .apiError c => DEFAULT_RETRYABLE_ERROR_CODES.contains c
  | .otherError _ => false

def DEFAULT_RETRY_COUNT : Nat := 12

/-- The retry loop of `defaultRetryable` from `util.ts`, starting at attempt
`i` with `fuel` guarded iterations left; the operation is modelled as a map
from the attempt index to its outcome. Returns the final outcome, the
number of attempts performed, and the delays slept (in ms, in order). -/
def retryGo (action : Nat → Except NotionError α) : Nat → Nat → Except NotionError α × Nat × List Nat
  | i, 0 => (action i, i + 1, [])
  | i, fuel + 1 =>
    match action i with
    | .ok v => (.ok v, i + 1, [])
    | .error e =>
      if isRetryableError e then
        match retryGo action (i + 1) fuel with
        | (r, a, ds) => (r, a, 1000 * 2 ^ i :: ds)
      else (.error e, i + 1, [])

/-- Function `defaultRetryable` from `util.ts`: up to `DEFAULT_RETRY_COUNT` guarded
attempts with exponential backoff, then one final unguarded attempt. -/
def defaultRetryable (action : Nat → Except NotionError α) :
    Except NotionError α × Nat × List Nat :=
  retryGo action 0 DEFAULT_RETRY_COUNT

/-- A leaf block of kind `t` with opaque payload `p` and no children field. -/
def leafB (t : BlockType) (p : Nat) : Block :=
  .mk ⟨t, p, [], none⟩ none

/-- A block of kind `t` with payload `p` and the given children. -/
def nodeB (t : BlockType) (p : Nat) (cs : List Block) : Block :=
  .mk ⟨t, p, [], none⟩ (some cs)

/-- The payload the planner assembles for a leaf input block. -/
def leafN (t : BlockType) (p : Nat) : NBlock :=
  .mk ⟨t, p, [], none⟩ none

/-- A flat run of 150 sibling leaf list items (the sibling-count test). -/
def flat150 : List FlexibleBlock :=
  (List.range 150).map (fun i => .block (leafB .bulleted_list_item i))

def flat150Expected : Plan :=
  [⟨[], (List.range 100).map (fun i => leafN .bulleted_list_item i)⟩,
   ⟨[], (List.range' 100 50).map (fun i => leafN .bulleted_list_item i)⟩]

/-- 150 siblings whose child at index 3 itself has 150 children (the nested
overflow test); grandchild `j` carries payload `1000 + j`. -/
def nested150 : List FlexibleBlock :=
  (List.range 150).map (fun i =>
    if i = 3 then
      .block (nodeB .bulleted_list_item 3
        ((List.range 150).map (fun j => leafB .bulleted_list_item (1000 + j))))
    else .block (leafB .bulleted_list_item i))

def nested150Expected : Plan :=
  [⟨[], (List.range 100).map (fun i =>
      if i = 3 then
        NBlock.mk ⟨.bulleted_list_item, 3, [], none⟩
          (some ((List.range 100).map (fun j => leafN .bulleted_list_item (1000 + j))))
      else leafN .bulleted_list_item i)⟩,
   ⟨[], (List.range' 100 50).map (fun i => leafN .bulleted_list_item i)⟩,
   ⟨[3], (List.range' 100 50).map (fun j => leafN .bulleted_list_item (1000 + j))⟩]

/-- A column_list holding a single column, given to the planner at the root. -/
def clInput : List FlexibleBlock :=
  [.block (nodeB .column_list 0 [leafB .column 1])]

def clExpected : Plan :=
  [⟨[], [NBlock.mk ⟨.column_list, 0, [], none⟩ (some [leafN .column 1])]⟩]

/-- A table with 100 rows followed by one wrong-kind (paragraph) child. -/
def tbl101 : Block :=
  nodeB .table 0
    ((List.range 100).map (fun j => leafB .table_row (j + 1)) ++ [leafB .paragraph 999])

/-- A paragraph wrongly carrying a child. -/
def paraWithChild : Block :=
  nodeB .paragraph 0 [leafB .paragraph 1]

/-- A table whose single child has the wrong kind. -/
def tblWrongChild : Block :=
  nodeB .table 0 [leafB .paragraph 1]

/-- A column_list whose single child has the wrong kind. -/
def clWrongChild : Block :=
  nodeB .column_list 0 [leafB .paragraph 1]

/-- A table with an absent children list. -/
def emptyTable : Block :=
  .mk ⟨.table, 0, [], none⟩ none

/-- An input whose bad paragraph precedes a children-less table. -/
def c10CounterInput : List FlexibleBlock :=
  [.block paraWithChild, .block emptyTable]

/-- Returns `true` exactly for the 19 kinds in the children-forbidding `case` group
of `Planner.visit`. -/
def forbidsChildren (t : BlockType) : Bool :=
  classify t == KindClass.leafKind

mutual

/-- Does the tree contain a node of a children-forbidding kind that
nevertheless carries a non-empty children list? -/
def hasForbiddenChildren : Block → Bool
  | .mk _ none => false
  | .mk d (some cs) => (forbidsChildren d.type && !cs.isEmpty) || hasForbiddenChildrenL cs

def hasForbiddenChildrenL : List Block → Bool
  | [] => false
  | b :: bs => hasForbiddenChildren b || hasForbiddenChildrenL bs

end

/-- A flexible block hiding a forbidden-children violation somewhere. -/
def badFlexible : FlexibleBlock → Bool
  | .block b => hasForbiddenChildren b
  | .inline _ => false

/-- Is this a table (resp. column_list) whose non-empty children include a
block of the wrong kind? (The scope of the container half of claim C6.) -/
def hasWrongKindChild (b : Block) : Bool :=
  (b.data.type == BlockType.table && !(b.children.getD []).isEmpty &&
    (b.children.getD []).any (fun c => c.data.type != BlockType.table_row)) ||
  (b.data.type == BlockType.column_list && !(b.children.getD []).isEmpty &&
    (b.children.getD []).any (fun c => c.data.type != BlockType.column))

/-- The inline-code anchor token `*n` synthesized by `toInlines`. -/
def anchorText (n : Nat) : List Inline :=
  text ("*" ++ toString n) (some ⟨true⟩)

/-- Caption rewriting applied to the `n`-th displaced block: the anchor is
prepended to a non-empty caption (space-separated), or becomes the caption. -/
def prependAnchor (n : Nat) (b : Block) : Block :=
  mapCaption b (fun cap =>
    match cap with
    | some (c :: cs) => some (anchorText n ++ text " " none ++ c :: cs)
    | _ => some (anchorText n))

/-- The inline sequence the specification promises `toInlines` returns:
inlines pass through, the `k`-th block (0-based) becomes the anchor token
numbered `n + k`, numbering strictly increasing in encounter order. -/
def anchorSeq (n : Nat) : List FlexibleBlock → List Inline
  | [] => []
  | .inline i :: rest => i :: anchorSeq n rest
  | .block _ :: rest => anchorText n ++ anchorSeq (n + 1) rest

/-- The displaced-blocks list the specification promises `toInlines`
appends: each encountered block, caption rewritten with its own anchor. -/
def displacedSeq (n : Nat) : List FlexibleBlock → List Block
  | [] => []
  | .inline _ :: rest => displacedSeq n rest
  | .block b :: rest => prependAnchor n b :: displacedSeq (n + 1) rest

/-- A minimal deterministic client used to instantiate the executor
theorems: every append reports one created identifier "n1", every listing
reports no children. -/
def demoClient : Client :=
  ⟨fun _ _ => ["n1"], fun _ => []⟩

/-! ### Chunking lemmas -/

theorem chunksW_nil (n : Nat) : chunksW n ([] : List α) = [] := by
  rw [chunksW.eq_def]

theorem chunksW_cons (n : Nat) (x : α) (xs : List α) :
    chunksW n (x :: xs) = (x :: xs.take (n - 1)) :: chunksW n (xs.drop (n - 1)) := by
  rw [chunksW.eq_def]

theorem chunksAux_eq (n : Nat) :
    ∀ (xs acc : List α) (k : Nat),
      chunksAux n xs acc k = (acc.reverse ++ xs.take k) :: chunksW n (xs.drop k) := by
  intro xs
  induction xs with
  | nil => intro acc k; simp [chunksAux, chunksW_nil]
  | cons x xs ih =>
    intro acc k
    cases k with
    | zero =>
      rw [chunksAux]
      simp only [List.take_zero, List.drop_zero, List.append_nil]
      rw [chunksW_cons]
      simp [ih]
    | succ k => rw [chunksAux, ih]; simp

theorem chunksOf_eq_chunksW (n : Nat) (l : List α) : chunksOf n l = chunksW n l := by
  cases l with
  | nil => rw [chunksOf, chunksW_nil]
  | cons x xs => rw [chunksOf, chunksAux_eq, chunksW_cons]; simp

theorem chunksW_length100 : ∀ (l : List α), (chunksW 100 l).length = (l.length + 99) / 100
  | [] => by simp [chunksW_nil]
  | x :: xs => by
    rw [chunksW_cons]
    have ih := chunksW_length100 (xs.drop (100 - 1))
    simp only [List.length_cons, List.length_drop] at ih ⊢
    omega
termination_by l => l.length
decreasing_by simp; omega

theorem chunksW_piece_le100 : ∀ (l : List α) (c : List α), c ∈ chunksW 100 l → c.length ≤ 100
  | [], c => by simp [chunksW_nil]
  | x :: xs, c => by
    rw [chunksW_cons]
    intro hc
    rcases List.mem_cons.mp hc with h | h
    · subst h
      simp only [List.length_cons, List.length_take]
      omega
    · exact chunksW_piece_le100 (xs.drop (100 - 1)) c h
termination_by l => l.length
decreasing_by simp; omega

theorem chunksW_sum100 : ∀ (l : List α), ((chunksW 100 l).map List.length).sum = l.length
  | [] => by simp [chunksW_nil]
  | x :: xs => by
    rw [chunksW_cons]
    have ih := chunksW_sum100 (xs.drop (100 - 1))
    simp only [List.map_cons, List.sum_cons, List.length_cons, List.length_drop,
      List.length_take] at ih ⊢
    omega
termination_by l => l.length
decreasing_by simp; omega

/-! ### Stable sort lemmas -/

theorem mem_insertByLen (e a : PlanEntry) :
    ∀ l, a ∈ insertByLen e l ↔ a = e ∨ a ∈ l := by
  intro l
  induction l with
  | nil => simp [insertByLen]
  | cons x xs ih =>
    rw [insertByLen]
    split
    · simp only [List.mem_cons, ih]; tauto
    · simp only [List.mem_cons]

theorem mem_sortPlan (a : PlanEntry) : ∀ l, a ∈ sortPlan l ↔ a ∈ l := by
  intro l
  induction l with
  | nil => simp [sortPlan]
  | cons x xs ih =>
    show a ∈ insertByLen x (sortPlan xs) ↔ _
    rw [mem_insertByLen]
    simp only [List.mem_cons, ih]

/-! ### allowedDepth lemmas -/

theorem foldl_min_le_init :
    ∀ (bs : List Block) (a : Nat),
      bs.foldl (fun x y => min x (maximumDepthToExist y)) a ≤ a := by
  intro bs
  induction bs with
  | nil => simp
  | cons c rest ih =>
    intro a
    exact le_trans (ih _) (Nat.min_le_left _ _)

theorem foldl_min_le_mem :
    ∀ (bs : List Block) (a : Nat) (b : Block), b ∈ bs →
      bs.foldl (fun x y => min x (maximumDepthToExist y)) a ≤ maximumDepthToExist b := by
  intro bs
  induction bs with
  | nil => simp
  | cons c rest ih =>
    intro a b hb
    rcases List.mem_cons.mp hb with h | h
    · subst h
      exact le_trans (foldl_min_le_init rest _) (Nat.min_le_right _ _)
    · exact ih _ b h

theorem allowedDepthOf_le (bs : List Block) (b : Block) (hb : b ∈ bs) :
    allowedDepthOf bs ≤ maximumDepthToExist b :=
  foldl_min_le_mem bs 99 b hb

/-! ### Planner structural lemmas -/

theorem visitFold_lengths :
    ∀ (bs : List Block) (d : Nat) (p : List Nat) (q nb ns : Nat)
      (bu sp : List NBlock) (es : List PlanEntry),
      visitFold bs d p q nb ns = .ok ((bu, sp), es) →
      bu.length = min (q - nb) bs.length ∧ sp.length = bs.length - bu.length := by
  intro bs
  induction bs with
  | nil =>
    intro d p q nb ns bu sp es h
    rw [visitFold] at h
    simp only [Except.ok.injEq, Prod.mk.injEq] at h
    obtain ⟨⟨h1, h2⟩, -⟩ := h
    subst h1; subst h2
    simp
  | cons b rest ih =>
    intro d p q nb ns bu sp es h
    rw [visitFold] at h
    split at h
    · split at h
      · exact absurd h (by simp)
      · split at h
        · exact absurd h (by simp)
        · rename_i n1 es1 hv pr2 bu' sp' es' hf
          simp only [Except.ok.injEq, Prod.mk.injEq] at h
          obtain ⟨⟨hbu, hsp⟩, -⟩ := h
          subst hbu; subst hsp
          have hrec := ih d p q (nb + 1) ns bu' sp' es' hf
          simp only [List.length_cons]
          omega
    · split at h
      · exact absurd h (by simp)
      · split at h
        · exact absurd h (by simp)
        · rename_i n1 es1 hv pr2 bu' sp' es' hf
          simp only [Except.ok.injEq, Prod.mk.injEq] at h
          obtain ⟨⟨hbu, hsp⟩, -⟩ := h
          subst hbu; subst hsp
          have hrec := ih d p q nb (ns + 1) bu' sp' es' hf
          simp only [List.length_cons]
          omega


/-! Unfolding equations for the planner visitors (the automatically
generated equations are conditional because of the overlapping children
patterns, so we state them once by hand). -/

theorem visit_eq (data : BlockData) (children : Option (List Block)) (depth : Nat) (path : List Nat) :
    visit (.mk data children) depth path =
      (match classify data.type with
      | .leafKind =>
        match children with
        | some (_ :: _) => .error (.policy (typeName data.type ++ " cannot have children"))
        | _ => .ok (.mk data none, [])
      | .tableKind =>
        match visitEach children (depth + 1) path with
        | .error e => .error e
        | .ok (none, _) => .error .typeError
        | .ok (some rows, es) =>
          if rows.all (fun r => r.data.type == BlockType.table_row) then
            .ok (.mk data (some rows), es)
          else
            .error (.policy "Only table_row must appear under table")
      | .columnListKind =>
        match visitEach children (depth + 1) path with
        | .error e => .error e
        | .ok (none, _) => .error .typeError
        | .ok (some columns, es) =>
          if columns.all (fun r => r.data.type == BlockType.column) then
            .ok (.mk data (some columns), es)
          else
            .error (.policy "Only column must appear under column_list")
      | .containerKind =>
        match visitEach children (depth + 1) path with
        | .error e => .error e
        | .ok (ocs, es) => .ok (.mk data ocs, es)) := rfl

theorem visitEach_eq_cons (b : Block) (bs : List Block) (depth : Nat) (path : List Nat) :
    visitEach (some (b :: bs)) depth path =
      (match visitFold (b :: bs) depth path
          (if allowedDepthOf (b :: bs) < depth then 0 else 100) 0 0 with
      | .error e => .error e
      | .ok ((bundled, splitted), es) =>
        .ok ((if bundled.isEmpty then none else some bundled),
          es ++ (chunksOf 100 splitted).map (fun c => ⟨path, c⟩))) := rfl

theorem visitFold_eq_cons (b : Block) (rest : List Block) (depth : Nat) (path : List Nat)
    (q nb ns : Nat) :
    visitFold (b :: rest) depth path q nb ns =
      (if nb < q then
        match visit b depth (path ++ [nb + ns]) with
        | .error e => .error e
        | .ok (n, es) =>
          match visitFold rest depth path q (nb + 1) ns with
          | .error e => .error e
          | .ok ((bu, sp), es2) => .ok ((n :: bu, sp), es ++ es2)
      else
        match visit b 0 (path ++ [nb + ns]) with
        | .error e => .error e
        | .ok (n, es) =>
          match visitFold rest depth path q nb (ns + 1) with
          | .error e => .error e
          | .ok ((bu, sp), es2) => .ok ((bu, n :: sp), es ++ es2)) := rfl

mutual

theorem visit_entries (b : Block) (d : Nat) (p : List Nat) (r : NBlock × List PlanEntry)
    (h : visit b d p = .ok r) :
    ∀ e ∈ r.2, e.bors.length ≤ 100 ∧ p.length ≤ e.path.length := by
  obtain ⟨data, children⟩ := b
  rw [visit_eq] at h
  split at h
  · split at h
    · exact absurd h (by simp)
    · simp only [Except.ok.injEq] at h
      subst h
      simp
  · split at h
    · exact absurd h (by simp)
    · exact absurd h (by simp)
    · rename_i rows es hv
      split at h
      · simp only [Except.ok.injEq] at h
        subst h
        exact visitEach_entries children (d + 1) p (some rows, es) hv
      · exact absurd h (by simp)
  · split at h
    · exact absurd h (by simp)
    · exact absurd h (by simp)
    · rename_i cols es hv
      split at h
      · simp only [Except.ok.injEq] at h
        subst h
        exact visitEach_entries children (d + 1) p (some cols, es) hv
      · exact absurd h (by simp)
  · split at h
    · exact absurd h (by simp)
    · rename_i ocs es hv
      simp only [Except.ok.injEq] at h
      subst h
      exact visitEach_entries children (d + 1) p (ocs, es) hv

theorem visitEach_entries (ob : Option (List Block)) (d : Nat) (p : List Nat)
    (r : Option (List NBlock) × List PlanEntry)
    (h : visitEach ob d p = .ok r) :
    ∀ e ∈ r.2, e.bors.length ≤ 100 ∧ p.length ≤ e.path.length := by
  match ob with
  | none =>
    rw [visitEach] at h
    simp only [Except.ok.injEq] at h
    subst h
    simp
  | some [] =>
    rw [visitEach] at h
    simp only [Except.ok.injEq] at h
    subst h
    simp
  | some (b :: bs) =>
    rw [visitEach_eq_cons] at h
    split at h
    · exact absurd h (by simp)
    · rename_i bundled splitted es hf
      simp only [Except.ok.injEq] at h
      subst h
      intro e he
      simp only [List.mem_append] at he
      rcases he with he | he
      · have := visitFold_entries (b :: bs) d p
          (if allowedDepthOf (b :: bs) < d then 0 else 100) 0 0 ((bundled, splitted), es) hf e he
        exact ⟨this.1, by omega⟩
      · simp only [List.mem_map] at he
        obtain ⟨c, hc, hce⟩ := he
        subst hce
        rw [chunksOf_eq_chunksW] at hc
        exact ⟨chunksW_piece_le100 splitted c hc, le_refl _⟩

theorem visitFold_entries (bs : List Block) (d : Nat) (p : List Nat) (q nb ns : Nat)
    (r : (List NBlock × List NBlock) × List PlanEntry)
    (h : visitFold bs d p q nb ns = .ok r) :
    ∀ e ∈ r.2, e.bors.length ≤ 100 ∧ p.length + 1 ≤ e.path.length := by
  match bs with
  | [] =>
    rw [visitFold] at h
    simp only [Except.ok.injEq] at h
    subst h
    simp
  | b :: rest =>
    rw [visitFold_eq_cons] at h
    split at h
    · split at h
      · exact absurd h (by simp)
      · split at h
        · exact absurd h (by simp)
        · rename_i n1 es1 hv pr2 bu' sp' es' hf
          simp only [Except.ok.injEq] at h
          subst h
          intro e he
          simp only [List.mem_append] at he
          rcases he with he | he
          · have := visit_entries b d (p ++ [nb + ns]) (n1, es1) hv e he
            refine ⟨this.1, ?_⟩
            have hl := this.2
            simp only [List.length_append, List.length_cons, List.length_nil] at hl
            omega
          · exact visitFold_entries rest d p q (nb + 1) ns ((bu', sp'), es') hf e he
    · split at h
      · exact absurd h (by simp)
      · split at h
        · exact absurd h (by simp)
        · rename_i n1 es1 hv pr2 bu' sp' es' hf
          simp only [Except.ok.injEq] at h
          subst h
          intro e he
          simp only [List.mem_append] at he
          rcases he with he | he
          · have := visit_entries b 0 (p ++ [nb + ns]) (n1, es1) hv e he
            refine ⟨this.1, ?_⟩
            have hl := this.2
            simp only [List.length_append, List.length_cons, List.length_nil] at hl
            omega
          · exact visitFold_entries rest d p q nb (ns + 1) ((bu', sp'), es') hf e he

end

theorem visitEach_bundled_le (ob : Option (List Block)) (d : Nat) (p : List Nat)
    (l : List NBlock) (es : List PlanEntry)
    (h : visitEach ob d p = .ok (some l, es)) : l.length ≤ 100 := by
  match ob with
  | none => rw [visitEach] at h; exact absurd h (by simp)
  | some [] => rw [visitEach] at h; exact absurd h (by simp)
  | some (b :: bs) =>
    rw [visitEach_eq_cons] at h
    split at h
    · exact absurd h (by simp)
    · rename_i bundled splitted es' hf
      simp only [Except.ok.injEq, Prod.mk.injEq] at h
      obtain ⟨h1, -⟩ := h
      have hlen := (visitFold_lengths (b :: bs) d p _ 0 0 bundled splitted es' hf).1
      split at h1
      · exact absurd h1 (by simp)
      · simp only [Option.some.injEq] at h1
        subst h1
        split at hlen <;> omega

theorem visitFold_q0_depth :
    ∀ (bs : List Block) (d d' : Nat) (p : List Nat) (nb ns : Nat),
      visitFold bs d p 0 nb ns = visitFold bs d' p 0 nb ns := by
  intro bs
  induction bs with
  | nil => intro d d' p nb ns; rw [visitFold, visitFold]
  | cons b rest ih =>
    intro d d' p nb ns
    rw [visitFold_eq_cons, visitFold_eq_cons,
      if_neg (Nat.not_lt_zero _), if_neg (Nat.not_lt_zero _), ih d d' p nb (ns + 1)]

/-- C1: for every input forest, every entry of a successfully produced plan
carries at most 100 payload units (bors); and the 150-sibling flat input is
split into two entries sharing path `[]`, holding the first 100 and the last
50 units in original order. -/
theorem claim_c1 :
    (∀ (fbs : List FlexibleBlock) (pl : Plan), plan fbs = .ok pl →
      ∀ e ∈ pl, e.bors.length ≤ 100) ∧
    plan flat150 = .ok flat150Expected := by
  constructor
  · intro fbs pl h e he
    rw [plan, run] at h
    split at h
    · exact absurd h (by simp)
    · rename_i es hv
      simp only [Except.ok.injEq] at h
      subst h
      rw [mem_sortPlan] at he
      exact (visitEach_entries _ 0 [] _ hv e he).1
    · rename_i bors es hv
      simp only [Except.ok.injEq] at h
      subst h
      rw [mem_sortPlan] at he
      rcases List.mem_cons.mp he with he | he
      · subst he
        simpa using visitEach_bundled_le _ 0 [] bors es hv
      · exact (visitEach_entries _ 0 [] _ hv e he).1
  · rfl

/-- Witness for C1: the universal bound applied to the first plan entry the
150-sibling flat input produces. -/
theorem claim_c1_witness :
    plan flat150 = .ok flat150Expected ∧
    (⟨[], (List.range 100).map (fun i => leafN .bulleted_list_item i)⟩ : PlanEntry).bors.length
      ≤ 100 :=
  ⟨rfl, claim_c1.1 flat150 flat150Expected rfl _ (by simp [flat150Expected])⟩

/-- C2: the depth ceilings are column_list = 0, table = 1, column = 1 and 2
for every other kind; when the minimum ceiling of a sibling group is below
the current depth the quota is 0 — nothing is bundled, all siblings become
overflow entries at the group's own path (ceil(len/100) entries holding all
len units, built independently of the current depth, i.e. rooted at depth
0); otherwise the quota is the sibling-count limit 100 and min(len, 100)
siblings are bundled. -/
theorem claim_c2 :
    (∀ b : Block, maximumDepthToExist b =
        (match b.data.type with
          | .column_list => 0
          | .table => 1
          | .column => 1
          | _ => 2)) ∧
    (∀ (bs : List Block) (d : Nat) (p : List Nat) (r : Option (List NBlock) × List PlanEntry),
        visitEach (some bs) d p = .ok r → allowedDepthOf bs < d →
        r.1 = none ∧
        (r.2.filter (fun e => decide (e.path = p))).length = (bs.length + 99) / 100 ∧
        ((r.2.filter (fun e => decide (e.path = p))).map (fun e => e.bors.length)).sum
          = bs.length) ∧
    (∀ (bs : List Block) (d d' : Nat) (p : List Nat),
        allowedDepthOf bs < d → allowedDepthOf bs < d' →
        visitEach (some bs) d p = visitEach (some bs) d' p) ∧
    (∀ (bs : List Block) (d : Nat) (p : List Nat) (r : Option (List NBlock) × List PlanEntry),
        visitEach (some bs) d p = .ok r → d ≤ allowedDepthOf bs → bs ≠ [] →
        ∃ l, r.1 = some l ∧ l.length = min bs.length 100) := by
  refine ⟨?_, ?_, ?_, ?_⟩
  · intro b
    obtain ⟨⟨t, pay, rt, cap⟩, c⟩ := b
    cases t <;> rfl
  · intro bs d p r h hlt
    match bs with
    | [] =>
      rw [visitEach] at h
      simp only [Except.ok.injEq] at h
      subst h
      refine ⟨rfl, ?_, ?_⟩ <;> simp
    | b :: bs =>
      rw [visitEach_eq_cons, if_pos hlt] at h
      split at h
      · exact absurd h (by simp)
      · rename_i bundled splitted es hf
        simp only [Except.ok.injEq] at h
        subst h
        obtain ⟨hbu, hsp⟩ := visitFold_lengths (b :: bs) d p 0 0 0 bundled splitted es hf
        simp only [Nat.zero_sub, Nat.zero_min] at hbu
        have hbnil : bundled = [] := List.length_eq_zero.mp hbu
        subst hbnil
        refine ⟨by simp, ?_, ?_⟩
        · rw [List.filter_append]
          rw [List.filter_eq_nil_iff.mpr, List.filter_eq_self.mpr]
          · simp only [List.nil_append, List.length_map]
            rw [chunksOf_eq_chunksW, chunksW_length100]
            omega
          · intro a ha
            simp only [List.mem_map] at ha
            obtain ⟨c, -, hc⟩ := ha
            subst hc
            simp
          · intro a ha
            have := (visitFold_entries (b :: bs) d p 0 0 0 ((_, splitted), es) hf a ha).2
            simp only [decide_eq_true_eq]
            intro hpath
            rw [hpath] at this
            omega
        · rw [List.filter_append]
          rw [List.filter_eq_nil_iff.mpr, List.filter_eq_self.mpr]
          · simp only [List.nil_append, List.map_map]
            have : ((chunksOf 100 splitted).map
                ((fun e => e.bors.length) ∘ (fun c => (⟨p, c⟩ : PlanEntry)))) =
                (chunksOf 100 splitted).map List.length := by
              apply List.map_congr_left
              intro a _
              rfl
            rw [this, chunksOf_eq_chunksW, chunksW_sum100]
            omega
          · intro a ha
            simp only [List.mem_map] at ha
            obtain ⟨c, -, hc⟩ := ha
            subst hc
            simp
          · intro a ha
            have := (visitFold_entries (b :: bs) d p 0 0 0 ((_, splitted), es) hf a ha).2
            simp only [decide_eq_true_eq]
            intro hpath
            rw [hpath] at this
            omega
  · intro bs d d' p h h'
    match bs with
    | [] => rw [visitEach, visitEach]
    | b :: bs =>
      rw [visitEach_eq_cons, visitEach_eq_cons, if_pos h, if_pos h',
        visitFold_q0_depth (b :: bs) d d' p 0 0]
  · intro bs d p r h hle hne
    match bs with
    | [] => exact absurd rfl hne
    | b :: bs =>
      rw [visitEach_eq_cons, if_neg (by omega)] at h
      split at h
      · exact absurd h (by simp)
      · rename_i bundled splitted es hf
        simp only [Except.ok.injEq] at h
        subst h
        obtain ⟨hbu, -⟩ := visitFold_lengths (b :: bs) d p 100 0 0 bundled splitted es hf
        match bundled, hbu with
        | x :: bu, hbu =>
          refine ⟨x :: bu, by simp, ?_⟩
          simp only [List.length_cons] at hbu ⊢
          omega
        | [], hbu => simp at hbu; omega

/-- Witness for C2: the quota-100 branch applied to a single paragraph leaf
at depth 0 (its ceiling is 2, so the group is embeddable). -/
theorem claim_c2_witness :
    visitEach (some [leafB .paragraph 5]) 0 [] = .ok (some [leafN .paragraph 5], []) ∧
    0 ≤ allowedDepthOf [leafB .paragraph 5] ∧
    ∃ l, ((some [leafN .paragraph 5] : Option (List NBlock)),
        ([] : List PlanEntry)).1 = some l ∧
      l.length = min ([leafB .paragraph 5].length) 100 :=
  ⟨rfl, Nat.zero_le _,
    claim_c2.2.2.2 [leafB .paragraph 5] 0 [] (some [leafN .paragraph 5], []) rfl
      (Nat.zero_le _) (by simp)⟩

/-- C3: for 150 siblings whose child at index 3 itself has 150 children,
the plan is exactly three entries in order: path `[]` with the first 100
children (child 3 carrying its first 100 grandchildren embedded), path `[]`
with the remaining 50 children, and path `[3]` with the remaining 50
grandchildren, all in original order. -/
theorem claim_c3 : plan nested150 = .ok nested150Expected := by rfl

/-- C4 as stated fails on the code: a column_list planned at call depth 0
embeds its columns inside its own payload, in the same plan entry — the
plan for `[column_list [column]]` is a single entry whose only unit is the
column_list carrying its column as an embedded child. -/
theorem claim_c4_counterexample :
    plan clInput = .ok clExpected ∧
    clExpected.length = 1 ∧
    (clExpected.headD ⟨[], []⟩).bors.any
      (fun nb => nb.data.type == BlockType.column_list &&
        !(nb.children.getD []).isEmpty) = true :=
  ⟨by rfl, by rfl, by rfl⟩

/-- C4 amended: `maximumDepthToExist` bounds the depth a block may exist at,
not the levels below it. A column_list may only be the root of its own call:
whenever a sibling group containing a column_list is processed at depth ≥ 1,
nothing from that group is embedded in the current call (all of it overflows
into separate plan entries); only at depth 0 are its columns embedded with
it. -/
theorem claim_c4_amended (bs : List Block) (d : Nat) (p : List Nat)
    (r : Option (List NBlock) × List PlanEntry)
    (hmem : ∃ b ∈ bs, b.data.type = BlockType.column_list) (hd : 1 ≤ d)
    (h : visitEach (some bs) d p = .ok r) : r.1 = none := by
  obtain ⟨b, hb, htype⟩ := hmem
  have hceil : maximumDepthToExist b = 0 := by
    rw [maximumDepthToExist, htype]
  have had : allowedDepthOf bs = 0 := by
    have := allowedDepthOf_le bs b hb
    omega
  match bs, hb with
  | b0 :: rest, hb =>
    rw [visitEach_eq_cons, if_pos (by omega)] at h
    split at h
    · exact absurd h (by simp)
    · rename_i bundled splitted es hf
      simp only [Except.ok.injEq] at h
      subst h
      obtain ⟨hbu, -⟩ := visitFold_lengths (b0 :: rest) d p 0 0 0 bundled splitted es hf
      simp only [Nat.zero_sub, Nat.zero_min] at hbu
      have : bundled = [] := List.length_eq_zero.mp hbu
      subst this
      simp

/-- Witness for the amended C4: a column_list group at depth 1 bundles
nothing. -/
theorem claim_c4_amended_witness :
    (nodeB .column_list 0 [leafB .column 1]).data.type = BlockType.column_list ∧
    ((none : Option (List NBlock)),
      [(⟨[], [NBlock.mk ⟨.column_list, 0, [], none⟩ (some [leafN .column 1])]⟩ : PlanEntry)]).1
      = none :=
  ⟨rfl, claim_c4_amended [nodeB .column_list 0 [leafB .column 1]] 1 []
    (none, [⟨[], [NBlock.mk ⟨.column_list, 0, [], none⟩ (some [leafN .column 1])]⟩])
    ⟨nodeB .column_list 0 [leafB .column 1], by simp, rfl⟩ (by omega) (by rfl)⟩

mutual

theorem visit_ok_clean (b : Block) (d : Nat) (p : List Nat) (r : NBlock × List PlanEntry)
    (h : visit b d p = .ok r) : hasForbiddenChildren b = false := by
  obtain ⟨data, children⟩ := b
  rw [visit_eq] at h
  split at h
  · -- leafKind: succeeding forces the children list to be absent or empty
    match children, h with
    | none, h => rw [hasForbiddenChildren]
    | some [], h =>
      rw [hasForbiddenChildren, hasForbiddenChildrenL]
      simp
    | some (c :: cs'), h => exact absurd h (by simp)
  · -- tableKind
    rename_i hcl
    split at h
    · exact absurd h (by simp)
    · exact absurd h (by simp)
    · rename_i rows es hv
      have hl := visitEach_ok_clean children (d + 1) p (some rows, es) hv
      match children, hl with
      | none, hl => rw [hasForbiddenChildren]
      | some cs, hl =>
        simp only [Option.getD_some] at hl
        rw [hasForbiddenChildren, forbidsChildren, hcl, hl]
        rfl
  · -- columnListKind
    rename_i hcl
    split at h
    · exact absurd h (by simp)
    · exact absurd h (by simp)
    · rename_i cols es hv
      have hl := visitEach_ok_clean children (d + 1) p (some cols, es) hv
      match children, hl with
      | none, hl => rw [hasForbiddenChildren]
      | some cs, hl =>
        simp only [Option.getD_some] at hl
        rw [hasForbiddenChildren, forbidsChildren, hcl, hl]
        rfl
  · -- containerKind
    rename_i hcl
    split at h
    · exact absurd h (by simp)
    · rename_i ocs es hv
      have hl := visitEach_ok_clean children (d + 1) p (ocs, es) hv
      match children, hl with
      | none, hl => rw [hasForbiddenChildren]
      | some cs, hl =>
        simp only [Option.getD_some] at hl
        rw [hasForbiddenChildren, forbidsChildren, hcl, hl]
        rfl

theorem visitEach_ok_clean (ob : Option (List Block)) (d : Nat) (p : List Nat)
    (r : Option (List NBlock) × List PlanEntry)
    (h : visitEach ob d p = .ok r) : hasForbiddenChildrenL (ob.getD []) = false := by
  match ob with
  | none => rw [Option.getD_none, hasForbiddenChildrenL]
  | some [] => rw [Option.getD_some, hasForbiddenChildrenL]
  | some (b :: rest) =>
    rw [visitEach_eq_cons] at h
    split at h
    · exact absurd h (by simp)
    · rename_i bundled splitted es hf
      rw [Option.getD_some]
      exact visitFold_ok_clean (b :: rest) d p
        (if allowedDepthOf (b :: rest) < d then 0 else 100) 0 0 ((bundled, splitted), es) hf

theorem visitFold_ok_clean (bs : List Block) (d : Nat) (p : List Nat) (q nb ns : Nat)
    (r : (List NBlock × List NBlock) × List PlanEntry)
    (h : visitFold bs d p q nb ns = .ok r) : hasForbiddenChildrenL bs = false := by
  match bs with
  | [] => rw [hasForbiddenChildrenL]
  | b :: rest =>
    rw [visitFold_eq_cons] at h
    split at h
    · split at h
      · exact absurd h (by simp)
      · split at h
        · exact absurd h (by simp)
        · rename_i n1 es1 hv pr2 bu' sp' es' hf
          rw [hasForbiddenChildrenL, visit_ok_clean b d (p ++ [nb + ns]) (n1, es1) hv,
            visitFold_ok_clean rest d p q (nb + 1) ns ((bu', sp'), es') hf]
          rfl
    · split at h
      · exact absurd h (by simp)
      · split at h
        · exact absurd h (by simp)
        · rename_i n1 es1 hv pr2 bu' sp' es' hf
          rw [hasForbiddenChildrenL, visit_ok_clean b 0 (p ++ [nb + ns]) (n1, es1) hv,
            visitFold_ok_clean rest d p q nb (ns + 1) ((bu', sp'), es') hf]
          rfl

end

theorem hasForbiddenChildrenL_eq_any :
    ∀ bs : List Block, hasForbiddenChildrenL bs = bs.any hasForbiddenChildren := by
  intro bs
  induction bs with
  | nil => rfl
  | cons b rest ih => rw [hasForbiddenChildrenL, List.any_cons, ih]

theorem mem_toBlocksGo (b : Block) :
    ∀ (fbs : List FlexibleBlock) (buf : List Inline),
      FlexibleBlock.block b ∈ fbs → b ∈ toBlocksGo fbs buf := by
  intro fbs
  induction fbs with
  | nil => simp
  | cons fb rest ih =>
    intro buf hmem
    rcases List.mem_cons.mp hmem with h | h
    · subst h
      rw [toBlocksGo]
      exact List.mem_append_right _ (List.mem_cons_self _ _)
    · match fb with
      | .block b' =>
        rw [toBlocksGo]
        exact List.mem_append_right _ (List.mem_cons_of_mem _ (ih [] h))
      | .inline i =>
        rw [toBlocksGo]
        exact ih _ h

/-- C6 as stated fails on the code: a table whose 101st child has the wrong
kind is in the claim's scope (non-empty children including a wrong-kind
block), yet planning succeeds — only the bundled first 100 children reach
the `testBlockTypes` validation, the overflow child bypasses it. -/
theorem claim_c6_counterexample :
    hasWrongKindChild tbl101 = true ∧ (plan [.block tbl101]).isOk = true :=
  ⟨by rfl, by rfl⟩

/-- C6 amended: an input containing a block of a children-forbidding kind
with a non-empty children list never yields a plan (planning aborts with an
error before any remote call), and the caller-supplied error policy is the
default raise for a paragraph with children, a table with an embedded
wrong-kind child, and a column_list with an embedded wrong-kind child; a
container's wrong-kind child beyond the first 100 siblings, however,
escapes validation. -/
theorem claim_c6_amended :
    (∀ (fbs : List FlexibleBlock) (pl : Plan),
        fbs.any badFlexible = true → plan fbs ≠ .ok pl) ∧
    plan [.block paraWithChild] = .error (.policy "paragraph cannot have children") ∧
    plan [.block tblWrongChild] = .error (.policy "Only table_row must appear under table") ∧
    plan [.block clWrongChild] = .error (.policy "Only column must appear under column_list") := by
  refine ⟨?_, by rfl, by rfl, by rfl⟩
  intro fbs pl hbad h
  rw [List.any_eq_true] at hbad
  obtain ⟨fb, hfb, hbadfb⟩ := hbad
  match fb, hbadfb with
  | .inline i, hbadfb => rw [badFlexible] at hbadfb; exact absurd hbadfb (by simp)
  | .block b, hbadfb =>
    rw [badFlexible] at hbadfb
    have hmem : b ∈ toBlocks fbs := mem_toBlocksGo b fbs [] hfb
    rw [plan, run] at h
    split at h
    · exact absurd h (by simp)
    · rename_i es hv
      have hclean := visitEach_ok_clean (some (toBlocks fbs)) 0 [] (none, es) hv
      rw [Option.getD_some, hasForbiddenChildrenL_eq_any] at hclean
      have := List.any_eq_false.mp hclean b hmem
      rw [hbadfb] at this
      exact absurd this (by simp)
    · rename_i bors es hv
      have hclean := visitEach_ok_clean (some (toBlocks fbs)) 0 [] (some bors, es) hv
      rw [Option.getD_some, hasForbiddenChildrenL_eq_any] at hclean
      have := List.any_eq_false.mp hclean b hmem
      rw [hbadfb] at this
      exact absurd this (by simp)

/-- Witness for the amended C6: the universal abort applied to the
paragraph-with-children input. -/
theorem claim_c6_witness :
    ([FlexibleBlock.block paraWithChild].any badFlexible = true) ∧
    plan [.block paraWithChild] ≠ .ok [] :=
  ⟨by rfl, claim_c6_amended.1 [.block paraWithChild] [] (by rfl)⟩

/-- C10 as stated fails on the code: when the input also contains an earlier
structural error, planning aborts through the error policy — not with the
TypeError — even though a children-less table is present. -/
theorem claim_c10_counterexample :
    emptyTable.data.type = BlockType.table ∧ emptyTable.children = none ∧
    plan c10CounterInput = .error (.policy "paragraph cannot have children") :=
  ⟨rfl, rfl, by rfl⟩

/-- C10 amended: whenever the planner visits a table or column_list whose
children list is absent or empty, it throws the TypeError (from calling
`.every` on `undefined` in `testBlockTypes`) instead of invoking the error
policy — in particular an input consisting of exactly such a block makes
`plan` throw the TypeError. -/
theorem claim_c10_amended (b : Block) (d : Nat) (p : List Nat)
    (htype : b.data.type = BlockType.table ∨ b.data.type = BlockType.column_list)
    (hch : b.children = none ∨ b.children = some []) :
    visit b d p = .error .typeError ∧ plan [.block b] = .error .typeError := by
  obtain ⟨⟨t, pay, rt, cap⟩, children⟩ := b
  simp only [Block.data, Block.children] at htype hch
  rcases htype with ht | ht <;> rcases hch with hc | hc <;>
    (subst ht; subst hc; exact ⟨by rfl, by rfl⟩)

/-- Witness for the amended C10: the children-less table. -/
theorem claim_c10_witness :
    emptyTable.data.type = BlockType.table ∧
    visit emptyTable 0 [] = .error .typeError ∧
    plan [.block emptyTable] = .error .typeError :=
  ⟨rfl, (claim_c10_amended emptyTable 0 [] (Or.inl rfl) (Or.inl rfl)).1,
    (claim_c10_amended emptyTable 0 [] (Or.inl rfl) (Or.inl rfl)).2⟩

/-- C7: every Block in the input is replaced in the returned inline sequence
by an inline-code anchor token, numbered sequentially from
`blocksOut.length + 1`, strictly increasing in encounter order, and the
block itself is appended to the returned block list with that same anchor
prepended to its caption (`anchorSeq`/`displacedSeq` spell out exactly this
promise of the specification). -/
theorem claim_c7 :
    ∀ (fbs : List FlexibleBlock) (refs : List Block),
      toInlines fbs refs =
        (anchorSeq (refs.length + 1) fbs, refs ++ displacedSeq (refs.length + 1) fbs) := by
  intro fbs
  induction fbs with
  | nil =>
    intro refs
    rw [toInlines, anchorSeq, displacedSeq]
    simp
  | cons fb rest ih =>
    intro refs
    match fb with
    | .inline i =>
      rw [toInlines, anchorSeq, displacedSeq, ih refs]
    | .block b =>
      rw [toInlines, anchorSeq, displacedSeq,
        ih (refs ++ [mapCaption b (fun cap =>
          match cap with
          | some (c :: cs) =>
            some (text ("*" ++ toString (refs.length + 1)) (some ⟨true⟩) ++
              text " " none ++ c :: cs)
          | _ => some (text ("*" ++ toString (refs.length + 1)) (some ⟨true⟩)))])]
      simp only [prependAnchor, anchorText, List.length_append, List.length_cons,
        List.length_nil, Nat.zero_add, List.append_assoc, List.singleton_append]

theorem toBlocksGo_blocks : ∀ bs : List Block, toBlocksGo (bs.map .block) [] = bs := by
  intro bs
  induction bs with
  | nil => rfl
  | cons b rest ih =>
    rw [List.map_cons, toBlocksGo, ih]
    rfl

/-- C8: `toBlocks` on a list containing only Blocks returns the same list
unchanged (order preserved), and on the empty list returns the empty list. -/
theorem claim_c8 :
    (∀ bs : List Block, toBlocks (bs.map .block) = bs) ∧ toBlocks [] = [] :=
  ⟨fun bs => toBlocksGo_blocks bs, rfl⟩

/-! ### Executor lemmas -/

theorem blockIdGo_notRoot :
    ∀ (client : Client) (path : List Nat) (node : BlockNode),
      (blockIdGo client false node path).2.2 = false := by
  intro client path
  induction path with
  | nil =>
    intro node
    obtain ⟨bid, och⟩ := node
    rw [blockIdGo]
  | cons i rest ih =>
    intro node
    obtain ⟨bid, och⟩ := node
    cases och with
    | some cs =>
      rw [blockIdGo]
      split
      · rfl
      · rename_i child heq
        split
        · rename_i rid child' log2 rl2 hrec
          have hchild := ih child
          rw [hrec] at hchild
          simp only at hchild
          subst hchild
          rfl
        · rename_i e log2 rl2 hrec
          have hchild := ih child
          rw [hrec] at hchild
          simp only at hchild
          subst hchild
          rfl
    | none =>
      rw [blockIdGo]
      split
      · rfl
      · rename_i child heq
        split
        · rename_i rid child' log2 rl2 hrec
          have hchild := ih child
          rw [hrec] at hchild
          simp only at hchild
          subst hchild
          rfl
        · rename_i e log2 rl2 hrec
          have hchild := ih child
          rw [hrec] at hchild
          simp only at hchild
          subst hchild
          rfl

theorem blockIdGo_rootCached (client : Client) (rbid : String) (cs : List BlockNode)
    (path : List Nat) :
    (blockIdGo client true (.mk rbid (some cs)) path).2.2 = false ∧
    (∀ rid node', (blockIdGo client true (.mk rbid (some cs)) path).1 = .ok (rid, node') →
      ∃ bid' cs', node' = .mk bid' (some cs')) := by
  cases path with
  | nil =>
    rw [blockIdGo]
    refine ⟨rfl, ?_⟩
    intro rid node' h
    simp only [Except.ok.injEq, Prod.mk.injEq] at h
    exact ⟨rbid, cs, h.2.symm⟩
  | cons i rest =>
    rw [blockIdGo]
    split
    · exact ⟨rfl, fun rid node' h => absurd h (by simp)⟩
    · rename_i child heq
      split
      · rename_i rid0 child' log2 rl2 hrec
        have hchild := blockIdGo_notRoot client rest child
        rw [hrec] at hchild
        simp only at hchild
        subst hchild
        refine ⟨rfl, ?_⟩
        intro rid node' h
        simp only [Except.ok.injEq, Prod.mk.injEq] at h
        exact ⟨rbid, cs.set i child', h.2.symm⟩
      · rename_i e log2 rl2 hrec
        have hchild := blockIdGo_notRoot client rest child
        rw [hrec] at hchild
        simp only at hchild
        subst hchild
        exact ⟨rfl, fun rid node' h => absurd h (by simp)⟩

theorem executeGo_rootListed (client : Client) :
    ∀ (pl : List PlanEntry) (rbid : String) (cs : List BlockNode),
      (executeGo client (.mk rbid (some cs)) pl).rootListed = false := by
  intro pl
  induction pl with
  | nil => intro rbid cs; rw [executeGo]
  | cons e rest ih =>
    intro rbid cs
    rw [executeGo]
    split
    · rename_i er log1 rl1 hrec
      have h1 := (blockIdGo_rootCached client rbid cs e.path).1
      rw [hrec] at h1
      simp only at h1
      subst h1
      rfl
    · rename_i bid root' log1 rl1 hrec
      have h1 := (blockIdGo_rootCached client rbid cs e.path).1
      rw [hrec] at h1
      simp only at h1
      subst h1
      obtain ⟨bid', cs', hnode⟩ := (blockIdGo_rootCached client rbid cs e.path).2 bid root'
        (by rw [hrec])
      subst hnode
      simp only
      by_cases hp : e.path.isEmpty
      · rw [if_pos hp]
        simp only [Option.getD_some, Bool.false_or]
        exact ih bid' _
      · rw [if_neg hp]
        simp only [Bool.false_or]
        exact ih bid' cs'

theorem executeGo_appends (client : Client) :
    ∀ (pl : List PlanEntry) (root : BlockNode),
      (executeGo client root pl).err = none →
      (executeGo client root pl).appends.map Prod.snd = pl.map PlanEntry.bors := by
  intro pl
  induction pl with
  | nil => intro root h; rw [executeGo]; rfl
  | cons e rest ih =>
    intro root h
    rw [executeGo] at h ⊢
    split at h
    · rename_i er log1 rl1 hrec
      exact absurd h (by simp)
    · rename_i bid root' log1 rl1 hrec
      simp only at h ⊢
      rw [List.map_cons, List.map_cons]
      simp only [List.cons.injEq]
      exact ⟨trivial, ih _ h⟩

theorem executeGo_rootOnly (client : Client) :
    ∀ (pl : List PlanEntry) (rbid : String) (cs : List BlockNode),
      (∀ e ∈ pl, e.path = []) →
      (executeGo client (.mk rbid (some cs)) pl).err = none ∧
      (executeGo client (.mk rbid (some cs)) pl).listed = [] ∧
      (executeGo client (.mk rbid (some cs)) pl).appends.map Prod.fst
        = pl.map (fun _ => rbid) ∧
      rootChildIds (executeGo client (.mk rbid (some cs)) pl) =
        cs.map BlockNode.blockId ++
          ((executeGo client (.mk rbid (some cs)) pl).appends.map
            (fun ab => client.append ab.1 ab.2)).flatten := by
  intro pl
  induction pl with
  | nil =>
    intro rbid cs hp
    rw [executeGo]
    refine ⟨rfl, rfl, rfl, ?_⟩
    rw [rootChildIds]
    simp [BlockNode.children]
  | cons e rest ih =>
    intro rbid cs hp
    obtain ⟨epath, ebors⟩ := e
    have hpe : epath = [] := hp _ (List.mem_cons_self _ _)
    subst hpe
    have hrest : ∀ e ∈ rest, e.path = [] := fun e he => hp e (List.mem_cons_of_mem _ he)
    obtain ⟨ih1, ih2, ih3, ih4⟩ := ih rbid
      (cs ++ (client.append rbid ebors).map (fun cid => BlockNode.mk cid none)) hrest
    rw [executeGo, blockIdGo]
    simp only [List.isEmpty_nil, if_true, Option.getD_some]
    refine ⟨ih1, by simpa using ih2, ?_, ?_⟩
    · rw [List.map_cons, List.map_cons]
      simp only [List.cons.injEq]
      exact ⟨trivial, ih3⟩
    · rw [rootChildIds] at ih4 ⊢
      simp only [List.map_cons, List.flatten_cons]
      rw [ih4]
      simp only [List.map_map, List.map_append, List.append_assoc, List.append_cancel_left_eq]
      have hm : ∀ ids : List String,
          List.map (BlockNode.blockId ∘ fun cid => BlockNode.mk cid none) ids = ids := by
        intro ids
        induction ids with
        | nil => rfl
        | cons a l ihl => simp only [List.map_cons, ihl, Function.comp, BlockNode.blockId]
      rw [hm]

/-- C9: `execute` applies the plan entries strictly in order (one append per
entry, payloads in plan order); the executor never performs a listing call
at the root node (its children are cached from the start, and every
identifier created by a root-level append is pushed onto that cache); and
for a plan of root-level entries the root's cached children end up being
exactly the identifiers returned by the append calls, concatenated in
creation order, with no listing call at all. -/
theorem claim_c9 :
    (∀ (client : Client) (rootId : String) (pl : Plan),
        (execute client rootId pl).err = none →
        (execute client rootId pl).appends.map Prod.snd = pl.map PlanEntry.bors) ∧
    (∀ (client : Client) (rootId : String) (pl : Plan),
        (execute client rootId pl).rootListed = false) ∧
    (∀ (client : Client) (rootId : String) (pl : Plan),
        (∀ e ∈ pl, e.path = []) →
        (execute client rootId pl).err = none ∧
        (execute client rootId pl).listed = [] ∧
        rootChildIds (execute client rootId pl) =
          ((execute client rootId pl).appends.map
            (fun ab => client.append ab.1 ab.2)).flatten) := by
  refine ⟨?_, ?_, ?_⟩
  · intro client rootId pl h
    exact executeGo_appends client pl _ h
  · intro client rootId pl
    exact executeGo_rootListed client pl rootId []
  · intro client rootId pl hp
    obtain ⟨h1, h2, h3, h4⟩ := executeGo_rootOnly client pl rootId [] hp
    refine ⟨h1, h2, ?_⟩
    rw [execute]
    simpa using h4

/-- Witness for C9: a single root-level entry against the demo client. -/
theorem claim_c9_witness :
    ((execute demoClient "root" [⟨[], []⟩]).appends.map Prod.snd
      = [(⟨[], []⟩ : PlanEntry)].map PlanEntry.bors) ∧
    (execute demoClient "root" [⟨[], []⟩]).rootListed = false ∧
    (execute demoClient "root" [⟨[], []⟩]).err = none ∧
    (execute demoClient "root" [⟨[], []⟩]).listed = [] ∧
    rootChildIds (execute demoClient "root" [⟨[], []⟩]) =
      ((execute demoClient "root" [⟨[], []⟩]).appends.map
        (fun ab => demoClient.append ab.1 ab.2)).flatten :=
  ⟨claim_c9.1 demoClient "root" [⟨[], []⟩] rfl,
    claim_c9.2.1 demoClient "root" [⟨[], []⟩],
    (claim_c9.2.2 demoClient "root" [⟨[], []⟩] (by simp)).1,
    (claim_c9.2.2 demoClient "root" [⟨[], []⟩] (by simp)).2.1,
    (claim_c9.2.2 demoClient "root" [⟨[], []⟩] (by simp)).2.2⟩

/-! ### Retry policy lemmas -/

theorem retryGo_all_transient (action : Nat → Except NotionError α) :
    ∀ (fuel i : Nat),
      (∀ j, j < fuel → ∃ e, action (i + j) = .error e ∧ isRetryableError e = true) →
      retryGo action i fuel =
        (action (i + fuel), i + fuel + 1, (List.range fuel).map (fun j => 1000 * 2 ^ (i + j))) := by
  intro fuel
  induction fuel with
  | zero => intro i h; rw [retryGo]; simp
  | succ fuel ih =>
    intro i h
    obtain ⟨e, he, hr⟩ := h 0 (Nat.succ_pos _)
    simp only [Nat.add_zero] at he
    rw [retryGo]
    simp only [he]
    rw [if_pos hr]
    have hrest : ∀ j, j < fuel → ∃ e, action (i + 1 + j) = .error e ∧ isRetryableError e = true := by
      intro j hj
      obtain ⟨e', he', hr'⟩ := h (j + 1) (by omega)
      exact ⟨e', by rw [show i + 1 + j = i + (j + 1) from by omega]; exact he', hr'⟩
    simp only [ih (i + 1) hrest]
    have hmap : List.map ((fun j => 1000 * 2 ^ (i + j)) ∘ Nat.succ) (List.range fuel) =
        List.map (fun j => 1000 * 2 ^ (i + 1 + j)) (List.range fuel) := by
      apply List.map_congr_left
      intro a _
      simp only [Function.comp]
      rw [show i + (a + 1) = i + 1 + a from by omega]
    rw [List.range_succ_eq_map, List.map_cons, List.map_map, hmap,
      show i + (fuel + 1) = i + 1 + fuel from by omega]
    simp

theorem retryGo_success (action : Nat → Except NotionError α) (v : α) :
    ∀ (k fuel i : Nat), k ≤ fuel →
      (∀ j, j < k → ∃ e, action (i + j) = .error e ∧ isRetryableError e = true) →
      action (i + k) = .ok v →
      retryGo action i fuel =
        (.ok v, i + k + 1, (List.range k).map (fun j => 1000 * 2 ^ (i + j))) := by
  intro k
  induction k with
  | zero =>
    intro fuel i hk h hok
    simp only [Nat.add_zero] at hok
    cases fuel with
    | zero => rw [retryGo]; simp [hok]
    | succ f => rw [retryGo]; simp [hok]
  | succ k ih =>
    intro fuel i hk h hok
    match fuel, hk with
    | f + 1, hk =>
      obtain ⟨e, he, hr⟩ := h 0 (Nat.succ_pos _)
      simp only [Nat.add_zero] at he
      rw [retryGo]
      simp only [he]
      rw [if_pos hr]
      have hrest : ∀ j, j < k → ∃ e, action (i + 1 + j) = .error e ∧ isRetryableError e = true := by
        intro j hj
        obtain ⟨e', he', hr'⟩ := h (j + 1) (by omega)
        exact ⟨e', by rw [show i + 1 + j = i + (j + 1) from by omega]; exact he', hr'⟩
      have hok' : action (i + 1 + k) = .ok v := by
        rw [show i + 1 + k = i + (k + 1) from by omega]
        exact hok
      simp only [ih f (i + 1) (by omega) hrest hok']
      have hmap : List.map ((fun j => 1000 * 2 ^ (i + j)) ∘ Nat.succ) (List.range k) =
          List.map (fun j => 1000 * 2 ^ (i + 1 + j)) (List.range k) := by
        apply List.map_congr_left
        intro a _
        simp only [Function.comp]
        rw [show i + (a + 1) = i + 1 + a from by omega]
      rw [List.range_succ_eq_map, List.map_cons, List.map_map, hmap,
        show i + (k + 1) + 1 = i + 1 + k + 1 from by omega]
      simp

/-- C5: the transient failures are exactly request timeouts and the API
codes conflict, rate-limited, internal server error and service
unavailable; a run of transient failures is retried up to the fixed bound
(12 guarded attempts, delays 1000·2^i ms doubling each attempt) and
exhausting the bound surfaces the outcome of the final attempt; a
non-retryable failure propagates immediately on the first attempt; and a
success after k ≤ 12 transient failures is returned after exactly k + 1
attempts. -/
theorem claim_c5 :
    (∀ e : NotionError, isRetryableError e = true ↔
        (e = .requestTimeout ∨ e = .apiError .conflictError ∨ e = .apiError .rateLimited ∨
          e = .apiError .internalServerError ∨ e = .apiError .serviceUnavailable)) ∧
    (∀ (α : Type) (action : Nat → Except NotionError α),
        (∀ i, i < DEFAULT_RETRY_COUNT →
          ∃ e, action i = .error e ∧ isRetryableError e = true) →
        defaultRetryable action =
          (action DEFAULT_RETRY_COUNT, DEFAULT_RETRY_COUNT + 1,
            (List.range DEFAULT_RETRY_COUNT).map (fun i => 1000 * 2 ^ i))) ∧
    (∀ (α : Type) (action : Nat → Except NotionError α) (e : NotionError),
        action 0 = .error e → isRetryableError e = false →
        defaultRetryable action = (.error e, 1, [])) ∧
    (∀ (α : Type) (action : Nat → Except NotionError α) (k : Nat) (v : α),
        k ≤ DEFAULT_RETRY_COUNT →
        (∀ i, i < k → ∃ e, action i = .error e ∧ isRetryableError e = true) →
        action k = .ok v →
        defaultRetryable action =
          (.ok v, k + 1, (List.range k).map (fun i => 1000 * 2 ^ i))) := by
  refine ⟨?_, ?_, ?_, ?_⟩
  · intro e
    cases e with
    | requestTimeout => simp [isRetryableError]
    | apiError c =>
      cases c <;> simp [isRetryableError, DEFAULT_RETRYABLE_ERROR_CODES]
    | otherError tag => simp [isRetryableError]
  · intro α action h
    rw [defaultRetryable]
    have := retryGo_all_transient action DEFAULT_RETRY_COUNT 0
      (by intro j hj; simpa using h j hj)
    simpa using this
  · intro α action e h0 hr
    rw [defaultRetryable]
    rw [show DEFAULT_RETRY_COUNT = 11 + 1 from rfl, retryGo]
    simp only [h0]
    rw [if_neg (by simp [hr])]
  · intro α action k v hk h hok
    rw [defaultRetryable]
    have := retryGo_success action v k DEFAULT_RETRY_COUNT 0 hk
      (by intro j hj; simpa using h j hj) (by simpa using hok)
    simpa using this

/-- Witness for C5: an operation that always fails with a validation error
(non-retryable) fails on the first attempt with no backoff delay. -/
theorem claim_c5_witness :
    isRetryableError (.apiError .validationError) = false ∧
    defaultRetryable (fun _ => (.error (.apiError .validationError) : Except NotionError Nat)) =
      (.error (.apiError .validationError), 1, []) :=
  ⟨rfl, claim_c5.2.2.1 Nat (fun _ => .error (.apiError .validationError))
    (.apiError .validationError) rfl rfl⟩
